import Mathlib

/-!
Verification development for the NeuroTracker triple-extraction pipeline.

Shallow embedding of the core pipeline of `src/preprocessor.py`,
`src/main1.py` and `src/graphGenerator.py`:

* an annotated document is a list of tokens carrying surface text, lemma,
  dependency label and the index of the head token (the external spaCy
  annotator produces these; the embedding treats the annotator as an
  opaque function from text to such a document);
* `build_matcher` registers three dependency patterns (verb with a
  subject child and an object child) keyed to closed lemma sets;
* `extract_triples` turns matcher hits into candidate triples;
* `normalize_entity` canonicalizes a mention against the UMLS linker;
* `label_for` is the keyword classifier of `main1.py`/`graphGenerator.py`;
* `NeoGraph` (schema creation, `upsert_node`, `upsert_relation`) is
  embedded as a pure state transformer on an association-list graph,
  mirroring the Cypher statements the adapter issues.
-/

namespace NeuroTracker

/-- Token of an annotated document: surface text, lemma, dependency label,
and index of the head token (spaCy convention: the root has itself as head). -/
structure Token where
  text : String
  lem : String
  dep : String
  head : Nat
deriving DecidableEq, Repr

/-- Default token used for out-of-range indexing (matcher indices are
always in range, so this is never reached on real matches). -/
def dummyToken : Token := ⟨"", "", "", 0⟩

/-- Reads the token at index i of a document, as doc[i] in Python. -/
def tokenAt (doc : List Token) (i : Nat) : Token := doc.getD i dummyToken

/-- Tests whether the list of characters hay starts with needle. -/
def listStarts : List Char → List Char → Bool
  | [], _ => true
  | _ :: _, [] => false
  | a :: as, b :: bs => a = b && listStarts as bs

/-- Tests whether needle occurs as a contiguous run inside hay. -/
def listInside (needle : List Char) : List Char → Bool
  | [] => needle.isEmpty
  | c :: rest => listStarts needle (c :: rest) || listInside needle rest

/-- Substring containment, as the Python expression needle in hay. -/
def strContains (hay needle : String) : Bool :=
  listInside needle.toList hay.toList

/-- Lowercase every character, as the Python str.lower on these ASCII inputs. -/
def lowerStr (s : String) : String := String.mk (s.toList.map Char.toLower)

/-- Relation pattern as registered on the spaCy DependencyMatcher by
build_matcher (src/preprocessor.py): a relation name and the lemma set
accepted for the verb anchor. -/
structure MatcherPattern where
  relName : String
  lemmas : List String
deriving DecidableEq, Repr

/-- Dependency roles accepted for the subject slot of every pattern. -/
def subjDeps : List String := ["nsubj", "nsubjpass"]

/-- Dependency roles accepted for the object slot of every pattern. -/
def objDeps : List String := ["dobj", "pobj"]

/-- Patterns registered by build_matcher (src/preprocessor.py lines 35-53):
MODULATES, AFFECTS and EXHIBITS, each anchored on a verb whose lemma lies in
the given list, with one subject child and one object child. -/
def build_matcher : List MatcherPattern :=
  [⟨"MODULATES", ["modulate", "influence", "affect"]⟩,
   ⟨"AFFECTS", ["affect", "alter", "increase", "decrease"]⟩,
   ⟨"EXHIBITS", ["exhibit", "show", "display"]⟩]

/-- Hit returned by the dependency matcher: the pattern name and the
indices of the bound verb, subject and object tokens. -/
structure MatchResult where
  relName : String
  verb : Nat
  subj : Nat
  obj : Nat
deriving DecidableEq, Repr

/-- Semantics of the registered dependency patterns, as executed by the
spaCy DependencyMatcher on a parsed document: for each pattern, every
triple of token indices (verb, subj, obj) such that the verb's lemma is in
the pattern's lemma set and subj and obj are direct dependency children of
the verb with the required roles. -/
def runMatcher (patterns : List MatcherPattern) (doc : List Token) : List MatchResult :=
  patterns.flatMap (fun p =>
    (List.range doc.length).flatMap (fun v =>
      if (tokenAt doc v).lem ∈ p.lemmas then
        (List.range doc.length).flatMap (fun s =>
          if s ≠ v ∧ (tokenAt doc s).head = v ∧ (tokenAt doc s).dep ∈ subjDeps then
            (List.range doc.length).flatMap (fun o =>
              if o ≠ v ∧ (tokenAt doc o).head = v ∧ (tokenAt doc o).dep ∈ objDeps then
                [⟨p.relName, v, s, o⟩]
              else [])
          else [])
      else []))

/-- Entity span recognized by the annotator, with its UMLS candidate links
(ent text together with the ranked kb_ents list of (cui, score) pairs). -/
structure UmlsLink where
  cui : String
  score : ℚ
deriving DecidableEq, Repr

/-- Entity span of a document, as doc.ents with the kb_ents extension. -/
structure Ent where
  text : String
  kb_ents : List UmlsLink
deriving DecidableEq, Repr

/-- Opaque model of the loaded scispacy pipeline: tokenization with
dependency parse, entity spans with UMLS links, and the linker's
cui-to-canonical-name table. -/
structure NlpModel where
  docTokens : String → List Token
  docEnts : String → List Ent
  canonicalOf : String → String

/-- Candidate triple as built by extract_triples (src/preprocessor.py
lines 84-111); field names follow the Python dict keys. -/
structure Triple where
  subject : String
  subject_type : String
  relation : String
  object : String
  object_type : String
  confidence : ℚ
  condition : String
  intensity : ℚ
  sentence : String
  dir : String
deriving DecidableEq, Repr

/-- Keyword-to-score table of estimate_trait_intensity, in the Python
dict's insertion (iteration) order. -/
def intensity_keywords : List (String × ℚ) :=
  [("strongly", 9/10), ("highly", 8/10), ("significantly", 7/10),
   ("moderately", 5/10), ("weakly", 3/10), ("slightly", 2/10)]

/-- Intensity score of estimate_trait_intensity (src/preprocessor.py
lines 69-82): the score of the first keyword occurring in the lowercased
sentence, 0.5 by default. -/
def estimate_trait_intensity (sentence : String) : ℚ :=
  match intensity_keywords.find? (fun p => strContains (lowerStr sentence) p.1) with
  | some p => p.2
  | none => 1/2

/-- Embedding of extract_triples (src/preprocessor.py lines 84-111): run
the matcher over the parsed text and package every hit into a candidate
triple. The subject_type and object_type fields are the hardcoded strings
of the source, confidence is the constant 0.8, the sentence field is the
whole input text, and dir is the hardcoded string "+". -/
def extract_triples (nlp : NlpModel) (matcher : List MatcherPattern) (text : String) :
    List Triple :=
  let doc := nlp.docTokens text
  (runMatcher matcher doc).map (fun m =>
    { subject := (tokenAt doc m.subj).text
      subject_type := "TRAIT"
      relation := m.relName
      object := (tokenAt doc m.obj).text
      object_type := "NEURAL_PATTERN"
      confidence := 8/10
      condition := "baseline"
      intensity := estimate_trait_intensity text
      sentence := text
      dir := "+" })

/-- First entity span of the list carrying at least one UMLS link, as the
loop of normalize_entity scans doc.ents. -/
def firstLinkedEnt : List Ent → Option Ent
  | [] => none
  | e :: rest => if e.kb_ents.isEmpty then firstLinkedEnt rest else some e

/-- Embedding of normalize_entity (src/preprocessor.py lines 59-67):
re-annotate the mention text, return the top-ranked link of the first
entity span having links (canonical name, cui, score), or the original
text with null id and score when no span has a link. -/
def normalize_entity (nlp : NlpModel) (text : String) : String × Option String × Option ℚ :=
  match firstLinkedEnt (nlp.docEnts text) with
  | some e =>
    match e.kb_ents with
    | l :: _ => (nlp.canonicalOf l.cui, some l.cui, some l.score)
    | [] => (text, none, none)
  | none => (text, none, none)

/-- Keywords routed to NEURAL_REGION by label_for. -/
def regionKeywords : List String := ["hippocamp", "cortex", "amygdala", "pfc"]

/-- Keywords routed to NEURAL_PATTERN by label_for. -/
def patternKeywords : List String := ["theta", "activation", "spike", "oscillation"]

/-- Keywords routed to ENVIRONMENT by label_for. -/
def environmentKeywords : List String := ["stress", "novelty", "reward", "environment"]

/-- Embedding of label_for (src/main1.py lines 322-330 and
src/graphGenerator.py lines 113-121, identical bodies): lowercase the term
and test the three keyword lists in priority order; default TRAIT. -/
def label_for (term : String) : String :=
  let tl := lowerStr term
  if regionKeywords.any (fun x => strContains tl x) then "NEURAL_REGION"
  else if patternKeywords.any (fun x => strContains tl x) then "NEURAL_PATTERN"
  else if environmentKeywords.any (fun x => strContains tl x) then "ENVIRONMENT"
  else "TRAIT"

/-- Output record built per triple by the graph_btn handler of src/main1.py
(lines 332-346): normalized names, recomputed categories, and the fields
copied from the candidate triple. -/
structure TripleInfo where
  subject : String
  subject_type : String
  relation : String
  direction : String
  object : String
  object_type : String
  confidence : ℚ
  sentence : String
deriving DecidableEq, Repr

/-- Per-triple processing of the graph_btn handler (src/main1.py lines
317-346): normalize subject and object, classify the normalized names with
label_for, and assemble the displayed/saved record. -/
def process_triple (nlp : NlpModel) (t : Triple) : TripleInfo :=
  let sn := normalize_entity nlp t.subject
  let obn := normalize_entity nlp t.object
  { subject := sn.1
    subject_type := label_for sn.1
    relation := t.relation
    direction := t.dir
    object := obn.1
    object_type := label_for obn.1
    confidence := t.confidence
    sentence := t.sentence }

/-! Graph store adapter (class NeoGraph of src/preprocessor.py), embedded
as a pure state transformer. Nodes are keyed by (label, name), as the
Cypher node patterns (n:LABEL {name:$name}); edges are keyed by the two
endpoint keys and the relation type, as MERGE (a)-[r:REL]->(b). Node and
edge property maps are stored in association lists in insertion order. -/

/-- Node identity: Neo4j label (the category) and name property. -/
structure NodeKey where
  label : String
  name : String
deriving DecidableEq, Repr

/-- Node properties: the cui attribute (absent is modelled as none,
matching SET n.cui = null which removes the property). -/
structure NodeProps where
  cui : Option String
deriving DecidableEq, Repr

/-- Edge identity: source node key, target node key and relation type. -/
structure EdgeKey where
  src : NodeKey
  dst : NodeKey
  relType : String
deriving DecidableEq, Repr

/-- Edge properties dir, conf and example; each may be absent. -/
structure EdgeProps where
  dir : Option String
  conf : Option ℚ
  exampleSent : Option String
deriving DecidableEq, Repr

/-- Graph state: nodes and edges as key-properties association lists. -/
structure GraphState where
  nodes : List (NodeKey × NodeProps)
  edges : List (EdgeKey × EdgeProps)
deriving DecidableEq, Repr

/-- Looks up the properties bound to a key in an association list. -/
def lookupA {α β : Type} [DecidableEq α] (l : List (α × β)) (k : α) : Option β :=
  (l.find? (fun p => decide (p.1 = k))).map (fun p => p.2)

/-- Tests whether an association list binds a key. -/
def hasKey {α β : Type} [DecidableEq α] (l : List (α × β)) (k : α) : Bool :=
  l.any (fun p => decide (p.1 = k))

/-- Rewrites the properties bound to a key in place, leaving other entries
untouched (the effect of a Cypher SET on the matched entity). -/
def modifyValue {α β : Type} [DecidableEq α] (l : List (α × β)) (k : α) (f : β → β) :
    List (α × β) :=
  l.map (fun p => if p.1 = k then (k, f p.2) else p)

/-- Embedding of NeoGraph.upsert_node (src/preprocessor.py lines 139-141):
MERGE (n:label {name:$name}) SET n.cui=$cui — merge the node by its
(label, name) key and write the cui property on both the create and the
match path. -/
def upsert_node (g : GraphState) (label name : String) (cui : Option String) : GraphState :=
  let k : NodeKey := ⟨label, name⟩
  if hasKey g.nodes k then
    { g with nodes := modifyValue g.nodes k (fun _ => ⟨cui⟩) }
  else
    { g with nodes := g.nodes ++ [(k, ⟨cui⟩)] }

/-- Confidence reconciliation of the ON MATCH clause of upsert_relation:
CASE WHEN r.conf IS NULL THEN $conf WHEN r.conf < $conf THEN $conf ELSE
r.conf END. -/
def matchConf (stored : Option ℚ) (conf : ℚ) : Option ℚ :=
  match stored with
  | none => some conf
  | some c => if c < conf then some conf else some c

/-- Embedding of NeoGraph.upsert_relation (src/preprocessor.py lines
143-158): MATCH both endpoint nodes (if either is absent the statement
touches nothing), MERGE the edge keyed by endpoints and relation type,
ON CREATE set dir, conf and example, ON MATCH reconcile conf only. -/
def upsert_relation (g : GraphState)
    (start_label start_name end_label end_name rel_type dir_sign : String)
    (conf : ℚ) (sent : String) : GraphState :=
  let a : NodeKey := ⟨start_label, start_name⟩
  let b : NodeKey := ⟨end_label, end_name⟩
  if hasKey g.nodes a && hasKey g.nodes b then
    let k : EdgeKey := ⟨a, b, rel_type⟩
    if hasKey g.edges k then
      let f : EdgeProps → EdgeProps := fun e => { e with conf := matchConf e.conf conf }
      { g with edges := modifyValue g.edges k f }
    else
      { g with edges := g.edges ++ [(k, ⟨some dir_sign, some conf, some sent⟩)] }
  else g

/-- One adapter write call: a node upsert or a relation upsert. -/
inductive GraphOp where
  | node (label name : String) (cui : Option String)
  | rel (start_label start_name end_label end_name rel_type dir_sign : String)
      (conf : ℚ) (sent : String)

/-- Applies one adapter call to the graph state. -/
def applyOp (g : GraphState) : GraphOp → GraphState
  | .node label name cui => upsert_node g label name cui
  | .rel sl sn el en rt d c s => upsert_relation g sl sn el en rt d c s

/-- Applies a sequence of adapter calls in order. -/
def applyOps (g : GraphState) (ops : List GraphOp) : GraphState :=
  ops.foldl applyOp g

/-- Confidence stored on an edge, when the edge and the property exist. -/
def edgeConf (g : GraphState) (k : EdgeKey) : Option ℚ :=
  (lookupA g.edges k).bind (fun e => e.conf)

/-- Per-triple storage of the graph_btn handler (src/main1.py lines
348-353): upsert both endpoint nodes under their recomputed labels, then
upsert the relation. -/
def store_triple (nlp : NlpModel) (g : GraphState) (t : Triple) : GraphState :=
  let sn := normalize_entity nlp t.subject
  let obn := normalize_entity nlp t.object
  let s_label := label_for sn.1
  let o_label := label_for obn.1
  let g1 := upsert_node g s_label sn.1 sn.2.1
  let g2 := upsert_node g1 o_label obn.1 obn.2.1
  upsert_relation g2 s_label sn.1 o_label obn.1 t.relation t.dir t.confidence t.sentence

/-! Schema creation (NeoGraph._create_schema, src/preprocessor.py lines
122-137): the DDL block is split on semicolons, each piece stripped, and
every nonempty piece submitted through its own session.run call; an
exception raised by a run call propagates out of the loop. -/

/-- The schema DDL block of _create_schema, verbatim (a Python
triple-quoted string: leading newline, eight-space indents, trailing
newline and indent). -/
def schema : String :=
  "\n        CREATE CONSTRAINT IF NOT EXISTS FOR (t:TRAIT) REQUIRE t.name IS UNIQUE;\n        CREATE CONSTRAINT IF NOT EXISTS FOR (e:ENVIRONMENT) REQUIRE e.name IS UNIQUE;\n        CREATE CONSTRAINT IF NOT EXISTS FOR (r:NEURAL_REGION) REQUIRE r.name IS UNIQUE;\n        CREATE CONSTRAINT IF NOT EXISTS FOR (p:NEURAL_PATTERN) REQUIRE p.name IS UNIQUE;\n        "

/-- Splits a character list at every occurrence of the separator, keeping
empty pieces, as the Python expression schema.split(";"). -/
def charSplit (sep : Char) : List Char → List (List Char)
  | [] => [[]]
  | c :: rest =>
    let r := charSplit sep rest
    if c = sep then [] :: r
    else
      match r with
      | [] => [[c]]
      | piece :: more => (c :: piece) :: more

/-- Strips leading and trailing whitespace, as the Python str.strip. -/
def trimChars (cs : List Char) : List Char :=
  ((cs.dropWhile Char.isWhitespace).reverse.dropWhile Char.isWhitespace).reverse

/-- The statements list of _create_schema: split the block on ";" and
strip each piece. -/
def schemaStatements : List String :=
  ((charSplit ';' schema.toList).map trimChars).map String.mk

/-- Number of nonempty semicolon-separated statements inside one submitted
query string (the quantity Neo4j requires to be exactly one per run call). -/
def statementCount (q : String) : Nat :=
  (((charSplit ';' q.toList).map trimChars).filter (fun s => s ≠ [])).length

/-- Execution of the _create_schema loop against a backing store whose
per-statement failures are given by the oracle: returns the list of
queries actually submitted (in order, one statement per run call) and
whether the loop completed without an exception. A failing run call
raises, so the loop stops right after submitting the failing statement. -/
def runSchemaStatements (fails : String → Bool) : List String → List String × Bool
  | [] => ([], true)
  | stmt :: rest =>
    if stmt = "" then runSchemaStatements fails rest
    else if fails stmt then ([stmt], false)
    else
      let r := runSchemaStatements fails rest
      (stmt :: r.1, r.2)

/-- Submission trace of _create_schema on the schema block. -/
def create_schema_trace (fails : String → Bool) : List String × Bool :=
  runSchemaStatements fails schemaStatements

/-! Spec-side predicates used to state the claims, and concrete fixtures. -/

/-- Spec-side predicate: some direct dependency child of token v carries
the negation dependency role (spaCy label "neg"). Used to state the
negation-direction claim; extract_triples itself never inspects it. -/
def hasNegationChild (doc : List Token) (v : Nat) : Bool :=
  (List.range doc.length).any (fun i =>
    decide (i ≠ v) && decide ((tokenAt doc i).head = v) &&
    decide ((tokenAt doc i).dep = "neg"))

/-- All lemmas registered across the three matcher families. -/
def registeredLemmas : List String := build_matcher.flatMap MatcherPattern.lemmas

/-- Spec-side predicate: the lowercased term contains some keyword of the
list as a substring (the membership test the spec describes for the
label classifier). -/
def keywordMatch (term : String) (kws : List String) : Prop :=
  ∃ kw ∈ kws, strContains (lowerStr term) kw = true

/-- The negation scenario sentence of the spec. -/
def negText : String := "Novelty does not affect theta oscillations."

/-- Dependency parse of the negation scenario sentence, as the spaCy model
annotates it: the verb affect (index 3) has children Novelty (nsubj),
does (aux), not (neg), oscillations (dobj) and the final period. -/
def negDoc : List Token :=
  [⟨"Novelty", "novelty", "nsubj", 3⟩,
   ⟨"does", "do", "aux", 3⟩,
   ⟨"not", "not", "neg", 3⟩,
   ⟨"affect", "affect", "ROOT", 3⟩,
   ⟨"theta", "theta", "amod", 5⟩,
   ⟨"oscillations", "oscillation", "dobj", 3⟩,
   ⟨".", ".", "punct", 3⟩]

/-- Annotator fixture returning the negation-scenario parse. -/
def negNlp : NlpModel := ⟨fun _ => negDoc, fun _ => [], fun c => c⟩

/-- The candidate triple extract_triples emits for the MODULATES hit on
the negation scenario. -/
def tripleMod : Triple :=
  ⟨"Novelty", "TRAIT", "MODULATES", "oscillations", "NEURAL_PATTERN",
   8/10, "baseline", 1/2, negText, "+"⟩

/-- The candidate triple extract_triples emits for the AFFECTS hit on
the negation scenario. -/
def tripleAff : Triple :=
  ⟨"Novelty", "TRAIT", "AFFECTS", "oscillations", "NEURAL_PATTERN",
   8/10, "baseline", 1/2, negText, "+"⟩

/-- Parse of a sentence containing no verb of any registered lemma set. -/
def plainDoc : List Token :=
  [⟨"The", "the", "det", 1⟩,
   ⟨"sky", "sky", "nsubj", 2⟩,
   ⟨"is", "be", "ROOT", 2⟩,
   ⟨"blue", "blue", "acomp", 2⟩,
   ⟨".", ".", "punct", 2⟩]

/-- Annotator fixture returning the no-matching-verb parse. -/
def plainNlp : NlpModel := ⟨fun _ => plainDoc, fun _ => [], fun c => c⟩

/-- Annotator fixture for the normalization scenario: the mention
"hippocampus" is recognized as an entity span with no UMLS link. -/
def hippoNlp : NlpModel := ⟨fun _ => [], fun _ => [⟨"hippocampus", []⟩], fun c => c⟩

/-- First uniqueness-constraint statement of the schema block. -/
def stmtTRAIT : String :=
  "CREATE CONSTRAINT IF NOT EXISTS FOR (t:TRAIT) REQUIRE t.name IS UNIQUE"

/-- Second uniqueness-constraint statement of the schema block. -/
def stmtENV : String :=
  "CREATE CONSTRAINT IF NOT EXISTS FOR (e:ENVIRONMENT) REQUIRE e.name IS UNIQUE"

/-- Third uniqueness-constraint statement of the schema block. -/
def stmtREGION : String :=
  "CREATE CONSTRAINT IF NOT EXISTS FOR (r:NEURAL_REGION) REQUIRE r.name IS UNIQUE"

/-- Fourth uniqueness-constraint statement of the schema block. -/
def stmtPATTERN : String :=
  "CREATE CONSTRAINT IF NOT EXISTS FOR (p:NEURAL_PATTERN) REQUIRE p.name IS UNIQUE"

/-- Failure oracle making exactly the first constraint statement fail. -/
def failsTRAIT : String → Bool := fun q => decide (q = stmtTRAIT)

/-- Graph fixture holding the two endpoint nodes of the scenario edge. -/
def gW : GraphState :=
  upsert_node (upsert_node ⟨[], []⟩ "TRAIT" "Stress" none)
    "NEURAL_PATTERN" "theta oscillations" none

/-- The scenario edge key between the two fixture nodes. -/
def kW : EdgeKey := ⟨⟨"TRAIT", "Stress"⟩, ⟨"NEURAL_PATTERN", "theta oscillations"⟩, "AFFECTS"⟩

/-- Graph fixture after a first relation upsert with confidence 3/5. -/
def gW1 : GraphState :=
  upsert_relation gW "TRAIT" "Stress" "NEURAL_PATTERN" "theta oscillations"
    "AFFECTS" "+" (3/5) "Stress increases theta oscillations."

/-! Helper lemmas about the association-list primitives. -/

theorem lookupA_cons {α β : Type} [DecidableEq α] (p : α × β) (l : List (α × β)) (k : α) :
    lookupA (p :: l) k = if p.1 = k then some p.2 else lookupA l k := by
  by_cases h : p.1 = k
  · simp [lookupA, List.find?_cons_of_pos, h]
  · simp [lookupA, List.find?_cons_of_neg, h]

theorem hasKey_eq_true_iff {α β : Type} [DecidableEq α] (l : List (α × β)) (k : α) :
    hasKey l k = true ↔ ∃ p ∈ l, p.1 = k := by
  simp [hasKey, List.any_eq_true]

theorem lookupA_eq_none_iff {α β : Type} [DecidableEq α] (l : List (α × β)) (k : α) :
    lookupA l k = none ↔ ∀ p ∈ l, p.1 ≠ k := by
  simp [lookupA, List.find?_eq_none]

theorem hasKey_eq_false_iff {α β : Type} [DecidableEq α] (l : List (α × β)) (k : α) :
    hasKey l k = false ↔ lookupA l k = none := by
  rw [lookupA_eq_none_iff]
  simp [hasKey, List.any_eq_true]

theorem lookupA_append_of_none {α β : Type} [DecidableEq α] (l m : List (α × β)) (k : α)
    (h : lookupA l k = none) : lookupA (l ++ m) k = lookupA m k := by
  induction l with
  | nil => rfl
  | cons p t ih =>
    rw [lookupA_cons] at h
    by_cases hp : p.1 = k
    · simp [hp] at h
    · rw [List.cons_append, lookupA_cons, if_neg hp]
      exact ih (by rwa [if_neg hp] at h)

theorem lookupA_append_of_some {α β : Type} [DecidableEq α] (l m : List (α × β)) (k : α)
    (v : β) (h : lookupA l k = some v) : lookupA (l ++ m) k = some v := by
  induction l with
  | nil => simp [lookupA] at h
  | cons p t ih =>
    rw [lookupA_cons] at h
    by_cases hp : p.1 = k
    · rw [List.cons_append, lookupA_cons, if_pos hp]
      rwa [if_pos hp] at h
    · rw [List.cons_append, lookupA_cons, if_neg hp]
      exact ih (by rwa [if_neg hp] at h)

theorem modifyValue_cons {α β : Type} [DecidableEq α] (p : α × β) (l : List (α × β)) (k : α)
    (f : β → β) :
    modifyValue (p :: l) k f =
      (if p.1 = k then (k, f p.2) else p) :: modifyValue l k f := by
  simp [modifyValue]

theorem lookupA_modify_self {α β : Type} [DecidableEq α] (l : List (α × β)) (k : α)
    (f : β → β) : lookupA (modifyValue l k f) k = (lookupA l k).map f := by
  induction l with
  | nil => rfl
  | cons p t ih =>
    rw [modifyValue_cons]
    by_cases hp : p.1 = k
    · simp [hp, lookupA_cons]
    · simp [hp, lookupA_cons, ih]

theorem lookupA_modify_other {α β : Type} [DecidableEq α] (l : List (α × β)) (k k2 : α)
    (f : β → β) (h : k2 ≠ k) : lookupA (modifyValue l k f) k2 = lookupA l k2 := by
  induction l with
  | nil => rfl
  | cons p t ih =>
    rw [modifyValue_cons]
    by_cases hp : p.1 = k
    · have hk2 : ¬(k = k2) := fun hk => h hk.symm
      simp [hp, lookupA_cons, ih, hk2]
    · simp [hp, lookupA_cons, ih]

theorem modifyValue_append {α β : Type} [DecidableEq α] (l m : List (α × β)) (k : α)
    (f : β → β) :
    modifyValue (l ++ m) k f = modifyValue l k f ++ modifyValue m k f := by
  simp [modifyValue]

theorem modifyValue_of_absent {α β : Type} [DecidableEq α] (l : List (α × β)) (k : α)
    (f : β → β) (h : ∀ p ∈ l, p.1 ≠ k) : modifyValue l k f = l := by
  induction l with
  | nil => rfl
  | cons p t ih =>
    rw [modifyValue_cons, if_neg (h p (List.mem_cons_self p t)),
      ih (fun q hq => h q (List.mem_cons_of_mem p hq))]

theorem modifyValue_modifyValue {α β : Type} [DecidableEq α] (l : List (α × β)) (k : α)
    (f g : β → β) :
    modifyValue (modifyValue l k f) k g = modifyValue l k (fun b => g (f b)) := by
  induction l with
  | nil => rfl
  | cons p t ih =>
    by_cases hp : p.1 = k
    · simp [modifyValue_cons, hp, ih]
    · simp [modifyValue_cons, hp, ih]

theorem hasKey_append {α β : Type} [DecidableEq α] (l m : List (α × β)) (k : α) :
    hasKey (l ++ m) k = (hasKey l k || hasKey m k) := by
  simp [hasKey, List.any_append]

theorem hasKey_modify {α β : Type} [DecidableEq α] (l : List (α × β)) (k k2 : α)
    (f : β → β) : hasKey (modifyValue l k f) k2 = hasKey l k2 := by
  induction l with
  | nil => rfl
  | cons p t ih =>
    by_cases hp : p.1 = k
    · simp [modifyValue_cons, hasKey, List.any_cons, hp] at ih ⊢
      rw [ih]
    · simp [modifyValue_cons, hasKey, List.any_cons, hp] at ih ⊢
      rw [ih]

theorem upsert_node_edges (g : GraphState) (label name : String) (cui : Option String) :
    (upsert_node g label name cui).edges = g.edges := by
  simp only [upsert_node]
  split <;> rfl

theorem upsert_relation_nodes (g : GraphState) (sl sn el en rt d : String) (c : ℚ)
    (s : String) : (upsert_relation g sl sn el en rt d c s).nodes = g.nodes := by
  simp only [upsert_relation]
  split
  · split <;> rfl
  · rfl

theorem matchConf_mono (stored : Option ℚ) (conf c : ℚ) (h : stored = some c) :
    ∃ c2, matchConf stored conf = some c2 ∧ c ≤ c2 := by
  subst h
  by_cases hlt : c < conf
  · exact ⟨conf, by simp [matchConf, hlt], le_of_lt hlt⟩
  · exact ⟨c, by simp [matchConf, hlt], le_refl c⟩

theorem applyOp_edge_step (g : GraphState) (op : GraphOp) (k : EdgeKey) (e : EdgeProps)
    (h : lookupA g.edges k = some e) :
    ∃ e2, lookupA (applyOp g op).edges k = some e2 ∧ e2.dir = e.dir ∧
      e2.exampleSent = e.exampleSent ∧
      ∀ c, e.conf = some c → ∃ c2, e2.conf = some c2 ∧ c ≤ c2 := by
  cases op with
  | node label name cui =>
    refine ⟨e, ?_, rfl, rfl, fun c hc => ⟨c, hc, le_refl c⟩⟩
    rw [applyOp, upsert_node_edges, h]
  | rel sl sn el en rt d c2 s =>
    rw [applyOp]
    simp only [upsert_relation]
    split
    · split
      · rename_i hk
        by_cases hkk : (⟨⟨sl, sn⟩, ⟨el, en⟩, rt⟩ : EdgeKey) = k
        · subst hkk
          refine ⟨{ e with conf := matchConf e.conf c2 }, ?_, rfl, rfl, ?_⟩
          · rw [lookupA_modify_self, h]
            rfl
          · intro c hc
            exact matchConf_mono e.conf c2 c hc
        · refine ⟨e, ?_, rfl, rfl, fun c hc => ⟨c, hc, le_refl c⟩⟩
          rw [lookupA_modify_other _ _ _ _ (fun hk2 => hkk hk2.symm), h]
      · exact ⟨e, lookupA_append_of_some _ _ _ _ h, rfl, rfl,
          fun c hc => ⟨c, hc, le_refl c⟩⟩
    · exact ⟨e, h, rfl, rfl, fun c hc => ⟨c, hc, le_refl c⟩⟩

theorem applyOps_edge_evolution (ops : List GraphOp) :
    ∀ (g : GraphState) (k : EdgeKey) (e : EdgeProps), lookupA g.edges k = some e →
      ∃ e2, lookupA (applyOps g ops).edges k = some e2 ∧ e2.dir = e.dir ∧
        e2.exampleSent = e.exampleSent ∧
        ∀ c, e.conf = some c → ∃ c2, e2.conf = some c2 ∧ c ≤ c2 := by
  induction ops with
  | nil => exact fun g k e h => ⟨e, h, rfl, rfl, fun c hc => ⟨c, hc, le_refl c⟩⟩
  | cons op rest ih =>
    intro g k e h
    obtain ⟨e1, h1, hd1, hx1, hc1⟩ := applyOp_edge_step g op k e h
    obtain ⟨e2, h2, hd2, hx2, hc2⟩ := ih (applyOp g op) k e1 h1
    refine ⟨e2, h2, hd2.trans hd1, hx2.trans hx1, ?_⟩
    intro c hc
    obtain ⟨c1, hcc1, hle1⟩ := hc1 c hc
    obtain ⟨cv, hcc2, hle2⟩ := hc2 c1 hcc1
    exact ⟨cv, hcc2, hle1.trans hle2⟩

theorem mem_ite_nil {α : Type} (c : Prop) [Decidable c] (l : List α) (a : α) :
    (a ∈ if c then l else []) ↔ c ∧ a ∈ l := by
  split_ifs with h <;> simp [h]

theorem mem_runMatcher (patterns : List MatcherPattern) (doc : List Token) (m : MatchResult) :
    m ∈ runMatcher patterns doc ↔
      ∃ p ∈ patterns, m.relName = p.relName ∧
        m.verb < doc.length ∧ (tokenAt doc m.verb).lem ∈ p.lemmas ∧
        m.subj < doc.length ∧ m.subj ≠ m.verb ∧ (tokenAt doc m.subj).head = m.verb ∧
        (tokenAt doc m.subj).dep ∈ subjDeps ∧
        m.obj < doc.length ∧ m.obj ≠ m.verb ∧ (tokenAt doc m.obj).head = m.verb ∧
        (tokenAt doc m.obj).dep ∈ objDeps := by
  simp only [runMatcher, List.mem_flatMap, List.mem_range, mem_ite_nil, List.mem_singleton]
  constructor
  · rintro ⟨p, hp, v, hv, hlem, s, hs, hsc, o, ho, hoc, rfl⟩
    exact ⟨p, hp, rfl, hv, hlem, hs, hsc.1, hsc.2.1, hsc.2.2, ho, hoc.1, hoc.2.1, hoc.2.2⟩
  · rintro ⟨p, hp, hrel, hv, hlem, hs, hsv, hsh, hsd, ho, hov, hoh, hod⟩
    refine ⟨p, hp, m.verb, hv, hlem, m.subj, hs, ⟨hsv, hsh, hsd⟩, m.obj, ho,
      ⟨hov, hoh, hod⟩, ?_⟩
    cases m with
    | mk rn vv ss oo => simp_all

theorem firstLinkedEnt_of_all_empty (ents : List Ent) (h : ∀ e ∈ ents, e.kb_ents = []) :
    firstLinkedEnt ents = none := by
  induction ents with
  | nil => rfl
  | cons e rest ih =>
    rw [firstLinkedEnt, if_pos (by simp [h e (List.mem_cons_self e rest)])]
    exact ih (fun x hx => h x (List.mem_cons_of_mem e hx))

theorem firstLinkedEnt_append_linked (pre : List Ent) (e : Ent) (post : List Ent)
    (hpre : ∀ x ∈ pre, x.kb_ents = []) (he : e.kb_ents ≠ []) :
    firstLinkedEnt (pre ++ e :: post) = some e := by
  induction pre with
  | nil =>
    rw [List.nil_append, firstLinkedEnt, if_neg (by simpa [List.isEmpty_iff] using he)]
  | cons x rest ih =>
    rw [List.cons_append, firstLinkedEnt,
      if_pos (by simp [hpre x (List.mem_cons_self x rest)])]
    exact ih (fun y hy => hpre y (List.mem_cons_of_mem x hy))

theorem runSchemaStatements_mem (fails : String → Bool) (stmts : List String) :
    ∀ q ∈ (runSchemaStatements fails stmts).1, q ∈ stmts ∧ q ≠ "" := by
  induction stmts with
  | nil => intro q hq; simp [runSchemaStatements] at hq
  | cons stmt rest ih =>
    intro q hq
    rw [runSchemaStatements] at hq
    by_cases h1 : stmt = ""
    · rw [if_pos h1] at hq
      obtain ⟨hmem, hne⟩ := ih q hq
      exact ⟨List.mem_cons_of_mem _ hmem, hne⟩
    · rw [if_neg h1] at hq
      by_cases h2 : fails stmt = true
      · rw [if_pos h2] at hq
        simp at hq
        rcases hq with rfl
        exact ⟨List.mem_cons_self _ _, h1⟩
      · rw [if_neg h2] at hq
        simp at hq
        rcases hq with rfl | hq
        · exact ⟨List.mem_cons_self _ _, h1⟩
        · obtain ⟨hmem, hne⟩ := ih q hq
          exact ⟨List.mem_cons_of_mem _ hmem, hne⟩

theorem runSchemaStatements_stops (fails : String → Bool) (stmts : List String) :
    ((runSchemaStatements fails stmts).2 = true ∧
      ∀ q ∈ (runSchemaStatements fails stmts).1, fails q = false) ∨
    ((runSchemaStatements fails stmts).2 = false ∧
      ∃ pre q, (runSchemaStatements fails stmts).1 = pre ++ [q] ∧
        (∀ t ∈ pre, fails t = false) ∧ fails q = true) := by
  induction stmts with
  | nil => exact Or.inl ⟨rfl, by simp [runSchemaStatements]⟩
  | cons stmt rest ih =>
    rw [runSchemaStatements]
    by_cases h1 : stmt = ""
    · rw [if_pos h1]
      exact ih
    · rw [if_neg h1]
      by_cases h2 : fails stmt = true
      · rw [if_pos h2]
        exact Or.inr ⟨rfl, [], stmt, by simp, by simp, h2⟩
      · rw [if_neg h2]
        rcases ih with ⟨hok, hall⟩ | ⟨hok, pre, q, htr, hpre, hq⟩
        · refine Or.inl ⟨hok, ?_⟩
          intro q hq
          simp at hq
          rcases hq with rfl | hq
          · exact Bool.eq_false_iff.mpr h2
          · exact hall q hq
        · refine Or.inr ⟨hok, stmt :: pre, q, by simp [htr], ?_, hq⟩
          intro t ht
          rcases List.mem_cons.mp ht with rfl | ht
          · exact Bool.eq_false_iff.mpr h2
          · exact hpre t ht

theorem lookupA_isSome_of_hasKey {α β : Type} [DecidableEq α] (l : List (α × β)) (k : α)
    (h : hasKey l k = true) : ∃ v, lookupA l k = some v := by
  cases hl : lookupA l k with
  | none => rw [(hasKey_eq_false_iff l k).mpr hl] at h; exact absurd h (by simp)
  | some v => exact ⟨v, rfl⟩

theorem matchConf_some_max (c1 c2 : ℚ) : matchConf (some c1) c2 = some (max c1 c2) := by
  simp only [matchConf]
  rcases lt_or_le c1 c2 with h | h
  · rw [if_pos h, max_eq_right h.le]
  · rw [if_neg (not_lt.mpr h), max_eq_left h]

theorem upsert_relation_create (g : GraphState) (sl sn el en rt d : String) (c : ℚ)
    (s : String) (hA : hasKey g.nodes ⟨sl, sn⟩ = true) (hB : hasKey g.nodes ⟨el, en⟩ = true)
    (hE : hasKey g.edges ⟨⟨sl, sn⟩, ⟨el, en⟩, rt⟩ = false) :
    upsert_relation g sl sn el en rt d c s =
      { g with edges :=
          g.edges ++ [(⟨⟨sl, sn⟩, ⟨el, en⟩, rt⟩, ⟨some d, some c, some s⟩)] } := by
  simp [upsert_relation, hA, hB, hE]

theorem upsert_relation_match (g : GraphState) (sl sn el en rt d : String) (c : ℚ)
    (s : String) (hA : hasKey g.nodes ⟨sl, sn⟩ = true) (hB : hasKey g.nodes ⟨el, en⟩ = true)
    (hE : hasKey g.edges ⟨⟨sl, sn⟩, ⟨el, en⟩, rt⟩ = true) :
    upsert_relation g sl sn el en rt d c s =
      { g with edges := (modifyValue g.edges ⟨⟨sl, sn⟩, ⟨el, en⟩, rt⟩
          (fun e => { e with conf := matchConf e.conf c })) } := by
  simp [upsert_relation, hA, hB, hE]

theorem tokenAt_mem (doc : List Token) (i : Nat) (h : i < doc.length) :
    tokenAt doc i ∈ doc := by
  rw [tokenAt, List.getD_eq_getElem doc dummyToken h]
  exact List.getElem_mem h

/-! Claim theorems. -/

/-- Claim C1, counterexample: on the spec's own negation scenario
"Novelty does not affect theta oscillations.", whose matched verb (index 3)
has a negation dependency child, extract_triples emits the two candidates
with direction "+", never "-" — refuting the claimed biconditional between
direction "-" and the presence of a negation child. -/
theorem extract_triples_negation_counterexample :
    hasNegationChild negDoc 3 = true ∧
    (∀ m ∈ runMatcher build_matcher negDoc, m.verb = 3) ∧
    extract_triples negNlp build_matcher negText = [tripleMod, tripleAff] ∧
    ∀ t ∈ extract_triples negNlp build_matcher negText, t.dir ≠ "-" :=
  ⟨by decide, by decide, rfl, by decide⟩

/-- Claim C1, amended: every candidate triple emitted by extract_triples
carries direction "+", regardless of any negation child of the matched
verb (the source hardcodes the dir field to "+"). -/
theorem extract_triples_direction_always_plus :
    ∀ (nlp : NlpModel) (matcher : List MatcherPattern) (text : String) (t : Triple),
      t ∈ extract_triples nlp matcher text → t.dir = "+" := by
  intro nlp matcher text t ht
  simp only [extract_triples, List.mem_map] at ht
  obtain ⟨m, hm, rfl⟩ := ht
  rfl

/-- Witness for the amended direction claim at the negation scenario. -/
theorem extract_triples_direction_always_plus_witness : tripleMod.dir = "+" :=
  extract_triples_direction_always_plus negNlp build_matcher negText tripleMod
    (by
      have h : extract_triples negNlp build_matcher negText = [tripleMod, tripleAff] := rfl
      rw [h]
      exact List.mem_cons_self _ _)

/-- Claim C8: upsert_relation never creates nodes — when either endpoint
key is absent from the graph, the call leaves the graph state unchanged
(the Cypher MATCH clause finds no row, so the MERGE touches nothing). -/
theorem upsert_relation_no_implicit_endpoints :
    ∀ (g : GraphState) (sl sn el en rt d : String) (c : ℚ) (s : String),
      hasKey g.nodes ⟨sl, sn⟩ = false ∨ hasKey g.nodes ⟨el, en⟩ = false →
      upsert_relation g sl sn el en rt d c s = g := by
  intro g sl sn el en rt d c s h
  rcases h with h | h <;> simp [upsert_relation, h]

/-- Witness for claim C8: upserting a relation on the empty graph is a
no-op. -/
theorem upsert_relation_no_implicit_endpoints_witness :
    upsert_relation ⟨[], []⟩ "TRAIT" "Stress" "NEURAL_PATTERN" "theta oscillations"
      "AFFECTS" "+" 1 "sent" = (⟨[], []⟩ : GraphState) :=
  upsert_relation_no_implicit_endpoints ⟨[], []⟩ "TRAIT" "Stress" "NEURAL_PATTERN"
    "theta oscillations" "AFFECTS" "+" 1 "sent" (Or.inl (by decide))

/-- Claim C9: when no token of the annotated text has a lemma in any
registered lemma set, extract_triples returns the empty list (a valid,
non-error outcome: the embedded extractor is a total function). -/
theorem extract_triples_empty_without_matching_verbs :
    ∀ (nlp : NlpModel) (text : String),
      (∀ tok ∈ nlp.docTokens text, tok.lem ∉ registeredLemmas) →
      extract_triples nlp build_matcher text = [] := by
  intro nlp text h
  have hm : runMatcher build_matcher (nlp.docTokens text) = [] := by
    rw [List.eq_nil_iff_forall_not_mem]
    intro m hmem
    rw [mem_runMatcher] at hmem
    obtain ⟨p, hp, _, hv, hlem, _⟩ := hmem
    exact h (tokenAt (nlp.docTokens text) m.verb) (tokenAt_mem _ _ hv)
      (List.mem_flatMap.mpr ⟨p, hp, hlem⟩)
  simp [extract_triples, hm]

/-- Witness for claim C9 on a sentence with no registered verb. -/
theorem extract_triples_empty_without_matching_verbs_witness :
    extract_triples plainNlp build_matcher "The sky is blue." = [] :=
  extract_triples_empty_without_matching_verbs plainNlp "The sky is blue." (by decide)

/-- Claim C10: every emitted candidate carries the hardcoded fields
subject_type = "TRAIT" and object_type = "NEURAL_PATTERN" and its sentence
field is the entire input text; the per-triple processing and storage of
the graph_btn handler never consume these candidate type fields (records
and stored labels are invariant under changing them), and the categories
it reports and persists are recomputed by label_for on the normalized
names. -/
theorem candidate_type_fields_hardcoded :
    (∀ (nlp : NlpModel) (matcher : List MatcherPattern) (text : String) (t : Triple),
       t ∈ extract_triples nlp matcher text →
       t.subject_type = "TRAIT" ∧ t.object_type = "NEURAL_PATTERN" ∧ t.sentence = text) ∧
    (∀ (nlp : NlpModel) (t : Triple) (st ot : String),
       process_triple nlp { t with subject_type := st, object_type := ot } =
         process_triple nlp t) ∧
    (∀ (nlp : NlpModel) (g : GraphState) (t : Triple) (st ot : String),
       store_triple nlp g { t with subject_type := st, object_type := ot } =
         store_triple nlp g t) ∧
    (∀ (nlp : NlpModel) (t : Triple),
       (process_triple nlp t).subject_type = label_for (normalize_entity nlp t.subject).1 ∧
       (process_triple nlp t).object_type = label_for (normalize_entity nlp t.object).1) := by
  refine ⟨?_, ?_, ?_, ?_⟩
  · intro nlp matcher text t ht
    simp only [extract_triples, List.mem_map] at ht
    obtain ⟨m, hm, rfl⟩ := ht
    exact ⟨rfl, rfl, rfl⟩
  · intro nlp t st ot
    rfl
  · intro nlp g t st ot
    rfl
  · intro nlp t
    exact ⟨rfl, rfl⟩

/-- Witness for claim C10 at the negation scenario's AFFECTS candidate. -/
theorem candidate_type_fields_hardcoded_witness :
    tripleAff.subject_type = "TRAIT" ∧ tripleAff.object_type = "NEURAL_PATTERN" ∧
      tripleAff.sentence = negText :=
  candidate_type_fields_hardcoded.1 negNlp build_matcher negText tripleAff
    (by
      have h : extract_triples negNlp build_matcher negText = [tripleMod, tripleAff] := rfl
      rw [h]
      exact List.mem_cons_of_mem _ (List.mem_cons_self _ _))

/-- Claim C4: upsert_node is idempotent and last-write-wins on the cui
attribute — upserting the same (label, name, cui) twice equals upserting
it once, and after any upsert (create or update path) the stored cui is
exactly the value supplied, a null value overwriting any previous one. -/
theorem upsert_node_idempotent_last_write_wins :
    (∀ (g : GraphState) (label name : String) (cui : Option String),
       upsert_node (upsert_node g label name cui) label name cui =
         upsert_node g label name cui) ∧
    (∀ (g : GraphState) (label name : String) (cui : Option String),
       lookupA (upsert_node g label name cui).nodes ⟨label, name⟩ = some ⟨cui⟩) := by
  constructor
  · intro g label name cui
    by_cases h : hasKey g.nodes (⟨label, name⟩ : NodeKey) = true
    · have h1 : upsert_node g label name cui =
          { g with nodes := modifyValue g.nodes ⟨label, name⟩ (fun _ => ⟨cui⟩) } := by
        simp [upsert_node, h]
      rw [h1]
      have h2 : hasKey (modifyValue g.nodes ⟨label, name⟩
          (fun _ => (⟨cui⟩ : NodeProps))) ⟨label, name⟩ = true := by
        rw [hasKey_modify]
        exact h
      simp [upsert_node, h2, h1, modifyValue_modifyValue]
    · have hf : hasKey g.nodes (⟨label, name⟩ : NodeKey) = false := by simpa using h
      have h1 : upsert_node g label name cui =
          { g with nodes := g.nodes ++ [(⟨label, name⟩, ⟨cui⟩)] } := by
        simp [upsert_node, hf]
      rw [h1]
      have h2 : hasKey (g.nodes ++ [((⟨label, name⟩ : NodeKey), (⟨cui⟩ : NodeProps))])
          ⟨label, name⟩ = true := by
        rw [hasKey_append]
        simp [hasKey]
      have habs : ∀ p ∈ g.nodes, p.1 ≠ (⟨label, name⟩ : NodeKey) :=
        (lookupA_eq_none_iff _ _).mp ((hasKey_eq_false_iff _ _).mp hf)
      have h3 : modifyValue (g.nodes ++ [((⟨label, name⟩ : NodeKey), (⟨cui⟩ : NodeProps))])
          ⟨label, name⟩ (fun _ => (⟨cui⟩ : NodeProps)) =
          g.nodes ++ [(⟨label, name⟩, ⟨cui⟩)] := by
        rw [modifyValue_append, modifyValue_of_absent _ _ _ habs]
        simp [modifyValue]
      simp [upsert_node, h2, h3]
  · intro g label name cui
    by_cases h : hasKey g.nodes (⟨label, name⟩ : NodeKey) = true
    · obtain ⟨v, hv⟩ := lookupA_isSome_of_hasKey _ _ h
      simp [upsert_node, h, lookupA_modify_self, hv]
    · have hf : hasKey g.nodes (⟨label, name⟩ : NodeKey) = false := by simpa using h
      have hnone := (hasKey_eq_false_iff _ _).mp hf
      have h1 : upsert_node g label name cui =
          { g with nodes := g.nodes ++ [(⟨label, name⟩, ⟨cui⟩)] } := by
        simp [upsert_node, hf]
      rw [h1]
      show lookupA (g.nodes ++ [(⟨label, name⟩, ⟨cui⟩)]) ⟨label, name⟩ = some ⟨cui⟩
      rw [lookupA_append_of_none _ _ _ hnone, lookupA_cons]
      simp

/-- Claim C6: build_matcher registers exactly the three families with the
closed lemma sets of the source; a hit binds a verb with exactly one
subject child (role nsubj or nsubjpass) and one object child (role dobj or
pobj), both direct dependency children; a verb whose lemma lies in two
sets (affect) yields one hit per family, without deduplication. -/
theorem build_matcher_registration_and_semantics :
    build_matcher =
      [⟨"MODULATES", ["modulate", "influence", "affect"]⟩,
       ⟨"AFFECTS", ["affect", "alter", "increase", "decrease"]⟩,
       ⟨"EXHIBITS", ["exhibit", "show", "display"]⟩] ∧
    (∀ (doc : List Token) (m : MatchResult),
      m ∈ runMatcher build_matcher doc ↔
        ∃ p ∈ build_matcher, m.relName = p.relName ∧
          m.verb < doc.length ∧ (tokenAt doc m.verb).lem ∈ p.lemmas ∧
          m.subj < doc.length ∧ m.subj ≠ m.verb ∧ (tokenAt doc m.subj).head = m.verb ∧
          (tokenAt doc m.subj).dep ∈ subjDeps ∧
          m.obj < doc.length ∧ m.obj ≠ m.verb ∧ (tokenAt doc m.obj).head = m.verb ∧
          (tokenAt doc m.obj).dep ∈ objDeps) ∧
    (⟨"MODULATES", 3, 0, 5⟩ : MatchResult) ∈ runMatcher build_matcher negDoc ∧
    (⟨"AFFECTS", 3, 0, 5⟩ : MatchResult) ∈ runMatcher build_matcher negDoc :=
  ⟨rfl, fun doc m => mem_runMatcher build_matcher doc m, by decide, by decide⟩

/-- Claim C7: normalize_entity re-annotates the mention in isolation;
when no recognized span carries a knowledge-base link it returns the
original mention with null concept id and score, and for the first span
carrying a link it returns the top-ranked link's canonical name, concept
id and score. -/
theorem normalize_entity_first_linked_span :
    ∀ (nlp : NlpModel) (text : String),
      ((∀ e ∈ nlp.docEnts text, e.kb_ents = []) →
        normalize_entity nlp text = (text, none, none)) ∧
      (∀ (pre : List Ent) (e : Ent) (post : List Ent) (l : UmlsLink)
          (rest : List UmlsLink),
        nlp.docEnts text = pre ++ e :: post →
        (∀ x ∈ pre, x.kb_ents = []) →
        e.kb_ents = l :: rest →
        normalize_entity nlp text = (nlp.canonicalOf l.cui, some l.cui, some l.score)) := by
  intro nlp text
  constructor
  · intro h
    simp only [normalize_entity]
    rw [firstLinkedEnt_of_all_empty _ h]
  · intro pre e post l rest hsplit hpre hlinks
    simp only [normalize_entity]
    rw [hsplit, firstLinkedEnt_append_linked pre e post hpre (by simp [hlinks])]
    simp [hlinks]

/-- Witness for claim C7: normalizing "hippocampus" with a linkless
recognized span returns the mention verbatim with null id and score. -/
theorem normalize_entity_first_linked_span_witness :
    normalize_entity hippoNlp "hippocampus" = ("hippocampus", none, none) :=
  (normalize_entity_first_linked_span hippoNlp "hippocampus").1 (by decide)

/-- Claim C5: label_for is a total deterministic function of the
lowercased name — it returns NEURAL_REGION exactly when a region keyword
occurs, NEURAL_PATTERN exactly when no region keyword but a pattern
keyword occurs, ENVIRONMENT exactly when neither occurs but an
environment keyword does, and TRAIT exactly when no keyword occurs; the
concrete conjuncts exercise case-insensitivity and the priority order on
names matching several keyword lists. -/
theorem label_for_total_priority_classifier :
    (∀ term : String,
      (label_for term = "NEURAL_REGION" ↔ keywordMatch term regionKeywords) ∧
      (label_for term = "NEURAL_PATTERN" ↔
        ¬keywordMatch term regionKeywords ∧ keywordMatch term patternKeywords) ∧
      (label_for term = "ENVIRONMENT" ↔
        ¬keywordMatch term regionKeywords ∧ ¬keywordMatch term patternKeywords ∧
          keywordMatch term environmentKeywords) ∧
      (label_for term = "TRAIT" ↔
        ¬keywordMatch term regionKeywords ∧ ¬keywordMatch term patternKeywords ∧
          ¬keywordMatch term environmentKeywords)) ∧
    label_for "Stress Theta Hippocampus" = "NEURAL_REGION" ∧
    label_for "Stress theta" = "NEURAL_PATTERN" ∧
    label_for "Chronic STRESS" = "ENVIRONMENT" ∧
    label_for "mindfulness" = "TRAIT" := by
  refine ⟨?_, by decide, by decide, by decide, by decide⟩
  intro term
  have hr : ((regionKeywords.any fun x => strContains (lowerStr term) x) = true) ↔
      keywordMatch term regionKeywords := by
    simp [keywordMatch, List.any_eq_true]
  have hp : ((patternKeywords.any fun x => strContains (lowerStr term) x) = true) ↔
      keywordMatch term patternKeywords := by
    simp [keywordMatch, List.any_eq_true]
  have he : ((environmentKeywords.any fun x => strContains (lowerStr term) x) = true) ↔
      keywordMatch term environmentKeywords := by
    simp [keywordMatch, List.any_eq_true]
  by_cases h1 : (regionKeywords.any fun x => strContains (lowerStr term) x) = true
  · have hl : label_for term = "NEURAL_REGION" := by simp [label_for, h1]
    rw [hl]
    exact ⟨iff_of_true rfl (hr.mp h1),
      iff_of_false (by decide) (fun hc => hc.1 (hr.mp h1)),
      iff_of_false (by decide) (fun hc => hc.1 (hr.mp h1)),
      iff_of_false (by decide) (fun hc => hc.1 (hr.mp h1))⟩
  · by_cases h2 : (patternKeywords.any fun x => strContains (lowerStr term) x) = true
    · have hl : label_for term = "NEURAL_PATTERN" := by simp [label_for, h1, h2]
      rw [hl]
      exact ⟨iff_of_false (by decide) (fun hc => h1 (hr.mpr hc)),
        iff_of_true rfl ⟨fun hc => h1 (hr.mpr hc), hp.mp h2⟩,
        iff_of_false (by decide) (fun hc => hc.2.1 (hp.mp h2)),
        iff_of_false (by decide) (fun hc => hc.2.1 (hp.mp h2))⟩
    · by_cases h3 : (environmentKeywords.any fun x => strContains (lowerStr term) x) = true
      · have hl : label_for term = "ENVIRONMENT" := by simp [label_for, h1, h2, h3]
        rw [hl]
        exact ⟨iff_of_false (by decide) (fun hc => h1 (hr.mpr hc)),
          iff_of_false (by decide) (fun hc => h2 (hp.mpr hc.2)),
          iff_of_true rfl
            ⟨fun hc => h1 (hr.mpr hc), fun hc => h2 (hp.mpr hc), he.mp h3⟩,
          iff_of_false (by decide) (fun hc => hc.2.2 (he.mp h3))⟩
      · have hl : label_for term = "TRAIT" := by simp [label_for, h1, h2, h3]
        rw [hl]
        exact ⟨iff_of_false (by decide) (fun hc => h1 (hr.mpr hc)),
          iff_of_false (by decide) (fun hc => h2 (hp.mpr hc.2)),
          iff_of_false (by decide) (fun hc => h3 (he.mpr hc.2.2)),
          iff_of_true rfl
            ⟨fun hc => h1 (hr.mpr hc), fun hc => h2 (hp.mpr hc),
              fun hc => h3 (he.mpr hc)⟩⟩

/-- Claim C3: for an existing edge identity, two successive relation
upserts with confidences c1 then c2 leave the stored confidence at
max c1 c2 while direction and example sentence stay those of the first
(create) call; and across any sequence of adapter calls an existing
edge's direction and example sentence are never modified and its stored
confidence never decreases (an absent stored value is replaced by the new
value). -/
theorem upsert_relation_max_confidence :
    (∀ (g : GraphState) (al an bl bn rel d1 : String) (c1 : ℚ) (s1 d2 : String)
        (c2 : ℚ) (s2 : String),
      hasKey g.nodes ⟨al, an⟩ = true →
      hasKey g.nodes ⟨bl, bn⟩ = true →
      lookupA g.edges ⟨⟨al, an⟩, ⟨bl, bn⟩, rel⟩ = none →
      lookupA (upsert_relation (upsert_relation g al an bl bn rel d1 c1 s1)
          al an bl bn rel d2 c2 s2).edges ⟨⟨al, an⟩, ⟨bl, bn⟩, rel⟩ =
        some ⟨some d1, some (max c1 c2), some s1⟩) ∧
    (∀ (g : GraphState) (ops : List GraphOp) (k : EdgeKey) (e : EdgeProps),
      lookupA g.edges k = some e →
      ∃ e2, lookupA (applyOps g ops).edges k = some e2 ∧ e2.dir = e.dir ∧
        e2.exampleSent = e.exampleSent ∧
        ∀ c, e.conf = some c → ∃ c2, e2.conf = some c2 ∧ c ≤ c2) := by
  constructor
  · intro g al an bl bn rel d1 c1 s1 d2 c2 s2 hA hB hNone
    have hEf : hasKey g.edges ⟨⟨al, an⟩, ⟨bl, bn⟩, rel⟩ = false :=
      (hasKey_eq_false_iff _ _).mpr hNone
    rw [upsert_relation_create g al an bl bn rel d1 c1 s1 hA hB hEf]
    have hE2 : hasKey
        (g.edges ++ [((⟨⟨al, an⟩, ⟨bl, bn⟩, rel⟩ : EdgeKey),
          (⟨some d1, some c1, some s1⟩ : EdgeProps))])
        ⟨⟨al, an⟩, ⟨bl, bn⟩, rel⟩ = true := by
      rw [hasKey_append]
      simp [hasKey]
    rw [upsert_relation_match
      ({ g with edges := g.edges ++ [(⟨⟨al, an⟩, ⟨bl, bn⟩, rel⟩,
        ⟨some d1, some c1, some s1⟩)] }) al an bl bn rel d2 c2 s2 hA hB hE2]
    show lookupA (modifyValue (g.edges ++ [(⟨⟨al, an⟩, ⟨bl, bn⟩, rel⟩,
      ⟨some d1, some c1, some s1⟩)]) ⟨⟨al, an⟩, ⟨bl, bn⟩, rel⟩
      (fun e => { e with conf := matchConf e.conf c2 })) ⟨⟨al, an⟩, ⟨bl, bn⟩, rel⟩ = _
    rw [lookupA_modify_self, lookupA_append_of_none _ _ _ hNone, lookupA_cons]
    simp [matchConf_some_max]
  · exact fun g ops k e h => applyOps_edge_evolution ops g k e h

/-- Witness for claim C3 on the spec's two-upsert scenario (confidences
3/5 then 2/5 on the Stress to theta-oscillations edge). -/
theorem upsert_relation_max_confidence_witness :
    lookupA (upsert_relation (upsert_relation gW "TRAIT" "Stress" "NEURAL_PATTERN"
        "theta oscillations" "AFFECTS" "+" (3/5) "Stress increases theta oscillations.")
        "TRAIT" "Stress" "NEURAL_PATTERN" "theta oscillations" "AFFECTS" "-" (2/5)
        "second").edges kW =
      some ⟨some "+", some (max (3/5) (2/5)), some "Stress increases theta oscillations."⟩ :=
  upsert_relation_max_confidence.1 gW "TRAIT" "Stress" "NEURAL_PATTERN"
    "theta oscillations" "AFFECTS" "+" (3/5) "Stress increases theta oscillations." "-"
    (2/5) "second" (by decide) (by decide) rfl

/-- Claim C2, counterexample: with a backing store on which the first
constraint statement fails, _create_schema submits only that first
statement — the second constraint statement is never attempted, refuting
the claimed independence of the statements' submissions. -/
theorem create_schema_failure_aborts_counterexample :
    create_schema_trace failsTRAIT = ([stmtTRAIT], false) ∧
    stmtENV ∈ schemaStatements ∧ stmtENV ≠ "" ∧ failsTRAIT stmtENV = false ∧
    stmtENV ∉ (create_schema_trace failsTRAIT).1 := by
  decide

/-- Claim C2, amended: each uniqueness-constraint DDL statement is
submitted to the backing store individually (every submitted query holds
exactly one statement), and statements are attempted in order until the
first failure — a failing statement raises and stops the loop, so the
remaining statements are not attempted. -/
theorem create_schema_one_statement_per_call :
    ∀ fails : String → Bool,
      (∀ q ∈ (create_schema_trace fails).1, statementCount q = 1) ∧
      ((create_schema_trace fails).2 = false →
        ∃ pre q, (create_schema_trace fails).1 = pre ++ [q] ∧
          (∀ t ∈ pre, fails t = false) ∧ fails q = true) := by
  intro fails
  constructor
  · intro q hq
    obtain ⟨hmem, hne⟩ := runSchemaStatements_mem fails schemaStatements q hq
    have hss : schemaStatements = [stmtTRAIT, stmtENV, stmtREGION, stmtPATTERN, ""] := by
      decide
    rw [hss] at hmem
    simp only [List.mem_cons, List.not_mem_nil, or_false] at hmem
    rcases hmem with rfl | rfl | rfl | rfl | rfl
    · decide
    · decide
    · decide
    · decide
    · exact absurd rfl hne
  · intro hfalse
    rcases runSchemaStatements_stops fails schemaStatements with ⟨hok, _⟩ | ⟨_, pre, q, htr, hpre, hq⟩
    · rw [create_schema_trace] at hfalse
      rw [hok] at hfalse
      exact absurd hfalse (by simp)
    · exact ⟨pre, q, htr, hpre, hq⟩

/-- Witness for the amended claim C2 on a store where no statement
fails. -/
theorem create_schema_one_statement_per_call_witness :
    statementCount stmtTRAIT = 1 :=
  (create_schema_one_statement_per_call (fun _ => false)).1 stmtTRAIT (by decide)

end NeuroTracker
